import Mathlib

/-!
Verification of the fastregex native core (src/rust/src/lib.rs).

The Rust source is shallowly embedded: machine integers (a JNI jint is an
i32, a jlong is an i64, and usize is 64 bits wide) are modelled as Int and
Nat with explicit reductions modulo powers of two at every cast, byte
buffers as lists of bytes (List Nat), JNI primitive arrays as Lean lists,
and the external collaborators (the slab slot arena, the moka pattern
cache, the regex engine) at their documented interfaces.  The regex engine
itself is outside the repository and is abstracted as a capability
structure Engine with fields compile and isMatch, exactly as the spec's
"Matcher" capability.  The JNI environment-failure branches (a buffer that
is not a DirectByteBuffer, an unreadable array length) are not modelled:
buffers and arrays are handed to the embedded functions directly, as
values.  A thrown IllegalArgumentException is modelled as a pending
Option String message returned next to the ordinary result.
-/

/-- Cast of a (sign-extended) machine integer to a 64-bit usize, as in the
Rust expressions o as usize and len as usize of lib.rs lines 115-116 and
239-240: reduce modulo 2^64. -/
def intToUsize (i : Int) : Nat := (i % (2 ^ 64 : Int)).toNat

/-- The i64 value whose 64-bit two's-complement pattern is the given Nat
(below 2^64): the value the batch loop stores into an outBits word. -/
def toJlong (w : Nat) : Int := if w < 2 ^ 63 then (w : Int) else (w : Int) - 2 ^ 64

/-- Bit b of the 64-bit two's-complement pattern of an i64 value. -/
def jlongTestBit (v : Int) (b : Nat) : Bool := ((v % (2 ^ 64 : Int)).toNat).testBit b

/-- The word of a jlong array at index w, 0 when out of range (used only to
state theorems about words the preconditions force to exist). -/
def wordAt (l : List Int) (w : Nat) : Int := (l[w]?).getD 0

/-- The entry of a jint array at index i, 0 when out of range (used only to
state theorems about entries the preconditions force to exist). -/
def intAt (l : List Int) (i : Nat) : Int := (l[i]?).getD 0

/-- The regex engine at the interface the repository uses it through
(spec section 1: a capability with is_match, plus the fallible constructor
Regex::new).  compile returns none exactly when the engine rejects the
pattern text. -/
structure Engine (μ : Type) where
  compile : String → Option μ
  isMatch : μ → List Nat → Bool

/-- Model of the slab crate's slot arena at its interface (spec section 9,
slot reuse / recycling table): entries is the arena, free the stack of
recycled slot indices.  Allocation pops a free slot or grows the arena;
removal pushes the slot back. -/
structure Slab (α : Type) where
  entries : List (Option α)
  free : List Nat
deriving DecidableEq, Repr

/-- Slab::with_capacity of lib.rs line 16: an empty arena. -/
def Slab.empty (α : Type) : Slab α := ⟨[], []⟩

/-- Slab::get, as used by get_regex_from_handle (lib.rs line 25). -/
def Slab.get (s : Slab α) (idx : Nat) : Option α :=
  match s.entries[idx]? with
  | some (some v) => some v
  | _ => none

/-- Slab::contains (lib.rs line 77). -/
def Slab.contains (s : Slab α) (idx : Nat) : Bool := (s.get idx).isSome

/-- Slab::insert (lib.rs line 62): key plus updated arena. -/
def Slab.insert (s : Slab α) (v : α) : Nat × Slab α :=
  match s.free with
  | [] => (s.entries.length, ⟨s.entries ++ [some v], []⟩)
  | f :: rest => (f, ⟨s.entries.set f (some v), rest⟩)

/-- Slab::remove (lib.rs line 78), called only under a contains guard. -/
def Slab.remove (s : Slab α) (idx : Nat) : Slab α :=
  ⟨s.entries.set idx none, idx :: s.free⟩

/-- Well-formedness of the arena: the free stack has no duplicates and
every recorded free slot is a present, vacant entry.  Every slab reachable
by the embedded operations from the empty slab satisfies this. -/
def Slab.WF (s : Slab α) : Prop :=
  s.free.Nodup ∧ ∀ f ∈ s.free, s.entries[f]? = some none

instance (s : Slab α) [DecidableEq α] : Decidable s.WF := by
  unfold Slab.WF; infer_instance

/-- The process-wide mutable state of lib.rs: REGEX_CACHE (line 11, an
association of pattern text to compiled matchers, newest first, modelling
the moka cache at its get/insert interface), the arena of compiled
matchers in order of compilation (so matchers.length counts the
compilation work performed, and sharing of one compiled matcher by cache
entry and handle slots is sharing of its index), and HANDLES (line 16). -/
structure NativeState (μ : Type) where
  cache : List (String × Nat)
  matchers : List μ
  handles : Slab Nat
deriving DecidableEq, Repr

/-- moka Cache::get at the interface lib.rs uses: exact-text lookup. -/
def cacheLookup : List (String × Nat) → String → Option Nat
  | [], _ => none
  | (k, v) :: rest, p => if k = p then some v else cacheLookup rest p

/-- handle_to_index, lib.rs lines 18-20. -/
def handleToIndex (handle : Int) : Option Nat :=
  if handle ≤ 0 then none else some (handle.toNat - 1)

/-- get_regex_from_handle, lib.rs lines 22-26; the Arc clone is sharing of
the matcher index. -/
def getRegexFromHandle (st : NativeState μ) (handle : Int) : Option Nat :=
  match handleToIndex handle with
  | none => none
  | some idx => st.handles.get idx

/-- Dereference of a shared matcher: re.is_match through the engine. -/
def engineMatch (eng : Engine μ) (st : NativeState μ) (mid : Nat) (bs : List Nat) : Bool :=
  match st.matchers[mid]? with
  | some m => eng.isMatch m bs
  | none => false

/-- Java_me_naimad_fastregex_FastRegex_compile, lib.rs lines 32-64.  The
argument is none when env.get_string fails (unreadable pattern text).
Returns the pending exception message, the returned jlong, and the state
after the call.  The engine's diagnostic text is abstracted as the fixed
message Invalid regex. -/
def compileOp (eng : Engine μ) (st : NativeState μ) (patternObj : Option String) :
    Option String × Int × NativeState μ :=
  match patternObj with
  | none => (some "Failed to read pattern string", 0, st)
  | some pattern =>
    match cacheLookup st.cache pattern with
    | some mid =>
      let ins := st.handles.insert mid
      (none, (ins.1 : Int) + 1, { st with handles := ins.2 })
    | none =>
      match eng.compile pattern with
      | none => (some "Invalid regex", 0, st)
      | some m =>
        let mid := st.matchers.length
        let ins := st.handles.insert mid
        (none, (ins.1 : Int) + 1,
          { cache := (pattern, mid) :: st.cache, matchers := st.matchers ++ [m],
            handles := ins.2 })

/-- Java_me_naimad_fastregex_FastRegex_release, lib.rs lines 66-80. -/
def releaseOp (st : NativeState μ) (handle : Int) : Option String × NativeState μ :=
  match handleToIndex handle with
  | none => (some "Invalid handle", st)
  | some idx =>
    if st.handles.contains idx then (none, { st with handles := st.handles.remove idx })
    else (none, st)

/-- Java_me_naimad_fastregex_FastRegex_matchesUtf8Direct, lib.rs lines
82-130.  data is the direct buffer's contents, so cap (line 107) is its
length; the slice of line 127 is the ln_u bytes from off_u. -/
def matchesUtf8Direct (eng : Engine μ) (st : NativeState μ) (handle : Int)
    (data : List Nat) (offset len : Int) : Option String × Bool :=
  match getRegexFromHandle st handle with
  | none => (some "Unknown/expired handle", false)
  | some mid =>
    let cap := data.length
    let offU := intToUsize offset
    let lnU := intToUsize len
    if offU > cap ∨ lnU > cap - offU then (some "offset/len out of bounds", false)
    else (none, engineMatch eng st mid ((data.drop offU).take lnU))

/-- One item of the batch loop body, lib.rs lines 238-248: the unsigned
bounds check, then is_match over the item's slice of the data buffer. -/
def itemBit (m : List Nat → Bool) (data : List Nat) (off ln : Int) : Bool :=
  let cap := data.length
  let offU := intToUsize off
  let lnU := intToUsize ln
  decide (offU ≤ cap) && (decide (lnU ≤ cap - offU) && m ((data.drop offU).take lnU))

/-- Recursion core of chunks(64): the fuel argument only bounds the
recursion depth (any fuel at least the list's length gives the same
result, see the congruence lemma below) and keeps the recursion
structural, so that the function evaluates inside the kernel. -/
def chunksGo : Nat → List α → List (List α)
  | _, [] => []
  | 0, _ :: _ => []
  | fuel + 1, x :: xs => ((x :: xs).take 64) :: chunksGo fuel ((x :: xs).drop 64)

/-- chunks(64) of lib.rs line 235: split a list into consecutive chunks
of 64 items, the last one possibly shorter. -/
def chunks64 (l : List α) : List (List α) := chunksGo l.length l

/-- The 64-bit pattern of one outBits word, lib.rs lines 236-249: the inner
loop over one offset chunk zipped with one length chunk, enumerated, OR-ing
1 shifted by the bit index for every matching valid item. -/
def chunkWordNat (m : List Nat → Bool) (data : List Nat) (oc lc : List Int) : Nat :=
  ((oc.zip lc).enum).foldl
    (fun w p => if itemBit m data p.2.1 p.2.2 then w ||| (1 <<< p.1) else w) 0

/-- The batch entry point past handle resolution, lib.rs lines 166-252:
the length checks and the chunked evaluation loop writing one word per
chunk.  Returns the pending exception message and the final contents of
the outBits array. -/
def batchCore (m : List Nat → Bool) (data : List Nat)
    (offsets lengths outBits : List Int) : Option String × List Int :=
  let n := offsets.length
  if n ≠ lengths.length then (some "offsets.length != lengths.length", outBits)
  else if outBits.length < (n + 63) / 64 then (some "outBits too small", outBits)
  else
    (none,
      (((chunks64 offsets).zip (chunks64 lengths)).enum).foldl
        (fun acc p => acc.set p.1 (toJlong (chunkWordNat m data p.2.1 p.2.2))) outBits)

/-- Java_me_naimad_fastregex_FastRegex_batchMatchesUtf8Direct, lib.rs lines
132-254: resolve the handle once, then run the batch core. -/
def batchMatchesUtf8Direct (eng : Engine μ) (st : NativeState μ) (handle : Int)
    (data : List Nat) (offsets lengths outBits : List Int) : Option String × List Int :=
  match getRegexFromHandle st handle with
  | none => (some "Unknown/expired handle", outBits)
  | some mid => batchCore (engineMatch eng st mid) data offsets lengths outBits

/-- A concrete engine instance for witnesses: the matcher compiled from a
pattern is its length, and it matches exactly the byte slices of that
length. -/
def testEngine : Engine Nat :=
  { compile := fun s => some s.length, isMatch := fun m bs => decide (bs.length = m) }

/-- The state at library load: empty cache, no compiled matcher, empty
handle arena. -/
def initState : NativeState Nat := { cache := [], matchers := [], handles := Slab.empty Nat }

/-- A witness state holding one live handle (value 1) for the pattern pq
compiled by testEngine: its matcher accepts exactly the 2-byte slices. -/
def stW : NativeState Nat := (compileOp testEngine initState (some "pq")).2.2

/-! Helper lemmas: lists, slab arena, handle arithmetic. -/

theorem getElem?_some_lt {l : List α} {i : Nat} {a : α} (h : l[i]? = some a) :
    i < l.length := by
  by_contra hc
  rw [List.getElem?_eq_none (by omega)] at h
  exact Option.noConfusion h

theorem zip_getElem? (l1 : List α) (l2 : List β) (i : Nat) :
    (l1.zip l2)[i]? = match l1[i]?, l2[i]? with
      | some a, some b => some (a, b)
      | _, _ => none := by
  induction l1 generalizing l2 i with
  | nil => cases l2 <;> cases i <;> simp
  | cons a as ih =>
    cases l2 with
    | nil => cases i <;> simp
    | cons b bs => cases i <;> simp [ih]

theorem Slab.get_eq (s : Slab α) (p : Nat) :
    s.get p = (s.entries[p]?).bind (fun o => o) := by
  unfold Slab.get
  rcases h : s.entries[p]? with _ | o
  · rfl
  · cases o <;> rfl

theorem Slab.get_eq_some {s : Slab α} {p : Nat} {x : α} :
    s.get p = some x ↔ s.entries[p]? = some (some x) := by
  rw [Slab.get_eq]
  rcases h : s.entries[p]? with _ | o
  · simp
  · cases o <;> simp

theorem Slab.insert_get_self (s : Slab α) (v : α) (hwf : s.WF) :
    (s.insert v).2.get (s.insert v).1 = some v := by
  unfold Slab.insert
  cases hf : s.free with
  | nil => simp [Slab.get_eq]
  | cons f rest =>
    have hfv : s.entries[f]? = some none := hwf.2 f (by rw [hf]; exact List.mem_cons_self f rest)
    have hlt : f < s.entries.length := getElem?_some_lt hfv
    simp [Slab.get_eq, List.getElem?_set_eq_of_lt _ hlt]

theorem Slab.insert_preserves (s : Slab α) (v : α) (p : Nat) (x : α) (hwf : s.WF)
    (hp : s.get p = some x) :
    (s.insert v).2.get p = some x ∧ (s.insert v).1 ≠ p := by
  have hp2 : s.entries[p]? = some (some x) := Slab.get_eq_some.1 hp
  have hplt : p < s.entries.length := getElem?_some_lt hp2
  unfold Slab.insert
  cases hf : s.free with
  | nil =>
    refine ⟨?_, ne_of_gt hplt⟩
    rw [Slab.get_eq]
    simp only [List.getElem?_append_left hplt]
    rw [hp2]; rfl
  | cons f rest =>
    have hfv : s.entries[f]? = some none := hwf.2 f (by rw [hf]; exact List.mem_cons_self f rest)
    have hfp : f ≠ p := by
      intro he; rw [he, hp2] at hfv; exact Option.noConfusion hfv (fun h2 => Option.noConfusion h2)
    refine ⟨?_, hfp⟩
    rw [Slab.get_eq]
    rw [List.getElem?_set_ne hfp]
    rw [hp2]; rfl

theorem Slab.insert_WF (s : Slab α) (v : α) (hwf : s.WF) : (s.insert v).2.WF := by
  unfold Slab.insert
  cases hf : s.free with
  | nil => exact ⟨List.nodup_nil, by simp⟩
  | cons f rest =>
    have hnd : (f :: rest).Nodup := hf ▸ hwf.1
    refine ⟨(List.nodup_cons.1 hnd).2, ?_⟩
    intro g hg
    have hgf : g ≠ f := by
      intro he; exact (List.nodup_cons.1 hnd).1 (he ▸ hg)
    rw [List.getElem?_set_ne (Ne.symm hgf)]
    exact hwf.2 g (by rw [hf]; exact List.mem_cons_of_mem f hg)

theorem Slab.get_remove_self (s : Slab α) (idx : Nat) (hlt : idx < s.entries.length) :
    (s.remove idx).get idx = none := by
  simp [Slab.get_eq, Slab.remove, List.getElem?_set_eq_of_lt _ hlt]

theorem Slab.get_remove_ne (s : Slab α) (idx p : Nat) (hne : idx ≠ p) :
    (s.remove idx).get p = s.get p := by
  simp [Slab.get_eq, Slab.remove, List.getElem?_set_ne hne]

theorem handleToIndex_natSucc (idx : Nat) : handleToIndex ((idx : Int) + 1) = some idx := by
  unfold handleToIndex
  rw [if_neg (by omega)]
  have h1 : ((idx : Int) + 1).toNat - 1 = idx := by omega
  rw [h1]

/-! Helper lemmas: chunking, the word-writing fold, the bit-packing fold. -/

theorem chunksGo_congr (fuel : Nat) : ∀ (fuel2 : Nat) (l : List α),
    l.length ≤ fuel → l.length ≤ fuel2 → chunksGo fuel l = chunksGo fuel2 l := by
  induction fuel with
  | zero =>
    intro fuel2 l h h2
    cases l with
    | nil => cases fuel2 <;> rfl
    | cons x xs => simp at h
  | succ fuel ih =>
    intro fuel2 l h h2
    cases l with
    | nil => cases fuel2 <;> rfl
    | cons x xs =>
      cases fuel2 with
      | zero => simp at h2
      | succ fuel2 =>
        simp only [chunksGo]
        congr 1
        exact ih fuel2 _ (by simp at h ⊢; omega) (by simp at h2 ⊢; omega)

theorem chunks64_nil : chunks64 ([] : List α) = [] := rfl

theorem chunks64_cons (x : α) (xs : List α) :
    chunks64 (x :: xs) = ((x :: xs).take 64) :: chunks64 ((x :: xs).drop 64) := by
  show chunksGo (xs.length + 1) (x :: xs) = _
  simp only [chunksGo]
  congr 1
  exact chunksGo_congr xs.length ((x :: xs).drop 64).length _
    (by simp only [List.length_drop, List.length_cons]; omega) (le_refl _)

theorem chunks64_length (l : List α) : (chunks64 l).length = (l.length + 63) / 64 := by
  cases l with
  | nil => simp [chunks64_nil]
  | cons x xs =>
    rw [chunks64_cons, List.length_cons, chunks64_length ((x :: xs).drop 64)]
    simp only [List.length_drop, List.length_cons]
    omega
termination_by l.length
decreasing_by simp; omega

theorem chunks64_getElem? (l : List α) (w : Nat) :
    (chunks64 l)[w]? = if 64 * w < l.length then some ((l.drop (64 * w)).take 64)
      else none := by
  cases l with
  | nil => simp [chunks64_nil]
  | cons x xs =>
    rw [chunks64_cons]
    cases w with
    | zero => simp
    | succ w =>
      rw [List.getElem?_cons_succ, chunks64_getElem? ((x :: xs).drop 64) w, List.drop_drop]
      have he : 64 + 64 * w = 64 * (w + 1) := by omega
      rw [he]
      have hc : (64 * w < ((x :: xs).drop 64).length) ↔ (64 * (w + 1) < (x :: xs).length) := by
        simp only [List.length_drop, List.length_cons]
        omega
      by_cases hlt : 64 * (w + 1) < (x :: xs).length
      · rw [if_pos (hc.2 hlt), if_pos hlt]
      · rw [if_neg (fun hx => hlt (hc.1 hx)), if_neg hlt]
termination_by l.length
decreasing_by simp; omega

theorem foldl_set_enumFrom_length (f : β → γ) (ps : List β) (s : Nat) (out : List γ) :
    ((List.enumFrom s ps).foldl (fun acc p => acc.set p.1 (f p.2)) out).length
      = out.length := by
  induction ps generalizing s out with
  | nil => simp
  | cons p ps ih =>
    rw [List.enumFrom_cons, List.foldl_cons, ih]
    exact out.length_set s (f p)

theorem foldl_set_enumFrom_getElem?_ge (f : β → γ) (ps : List β) (s : Nat) (out : List γ)
    (w : Nat) (hw : w < s ∨ s + ps.length ≤ w) :
    ((List.enumFrom s ps).foldl (fun acc p => acc.set p.1 (f p.2)) out)[w]? = out[w]? := by
  induction ps generalizing s out with
  | nil => simp
  | cons p ps ih =>
    rw [List.enumFrom_cons, List.foldl_cons]
    have hsw : s ≠ w := by simp at hw; omega
    rw [ih (s + 1) _ (by simp at hw ⊢; omega)]
    exact List.getElem?_set_ne hsw

theorem foldl_set_enumFrom_getElem?_lt (f : β → γ) (ps : List β) (s : Nat) (out : List γ)
    (hlen : s + ps.length ≤ out.length) (w : Nat) (hw1 : s ≤ w) (hw2 : w < s + ps.length) :
    ((List.enumFrom s ps).foldl (fun acc p => acc.set p.1 (f p.2)) out)[w]?
      = (ps[w - s]?).map f := by
  induction ps generalizing s out with
  | nil => simp at hw2; omega
  | cons p ps ih =>
    rw [List.enumFrom_cons, List.foldl_cons]
    rcases Nat.eq_or_lt_of_le hw1 with he | hlt
    · subst he
      rw [foldl_set_enumFrom_getElem?_ge f ps (s + 1) _ s (Or.inl (by omega))]
      have hsl : s < out.length := by simp at hlen; omega
      simp [List.getElem?_set_eq_of_lt _ hsl]
    · have h1 : (out.set s (f p)).length = out.length := out.length_set s (f p)
      rw [ih (s + 1) _ (by simp at hlen ⊢; omega) (by omega) (by simp at hw2 ⊢; omega)]
      have h2 : w - s = (w - (s + 1)) + 1 := by omega
      rw [h2, List.getElem?_cons_succ]


theorem foldl_or_enumFrom_testBit_ge (g : Int × Int → Bool) (ps : List (Int × Int))
    (s init b : Nat) (hb : b < s ∨ s + ps.length ≤ b) :
    ((List.enumFrom s ps).foldl
        (fun w p => if g p.2 then w ||| (1 <<< p.1) else w) init).testBit b
      = init.testBit b := by
  induction ps generalizing s init with
  | nil => simp
  | cons p ps ih =>
    rw [List.enumFrom_cons, List.foldl_cons]
    have hsb : s ≠ b := by simp at hb; omega
    have hred : (if g (s, p).2 then init ||| (1 <<< (s, p).1) else init)
        = (if g p then init ||| (1 <<< s) else init) := rfl
    rw [hred, ih (s + 1) _ (by simp at hb ⊢; omega)]
    by_cases hg : g p
    · rw [if_pos hg, Nat.testBit_or, Nat.shiftLeft_eq, one_mul,
        Nat.testBit_two_pow_of_ne hsb, Bool.or_false]
    · rw [if_neg hg]

theorem foldl_or_enumFrom_testBit_lt (g : Int × Int → Bool) (ps : List (Int × Int))
    (s init b : Nat) (hb1 : s ≤ b) (hb2 : b < s + ps.length) :
    ((List.enumFrom s ps).foldl
        (fun w p => if g p.2 then w ||| (1 <<< p.1) else w) init).testBit b
      = (init.testBit b || ((ps[b - s]?).map g).getD false) := by
  induction ps generalizing s init with
  | nil => simp at hb2; omega
  | cons p ps ih =>
    rw [List.enumFrom_cons, List.foldl_cons]
    have hred : (if g (s, p).2 then init ||| (1 <<< (s, p).1) else init)
        = (if g p then init ||| (1 <<< s) else init) := rfl
    rw [hred]
    rcases Nat.eq_or_lt_of_le hb1 with he | hlt
    · subst he
      rw [foldl_or_enumFrom_testBit_ge g ps (s + 1) _ s (Or.inl (by omega))]
      by_cases hg : g p
      · rw [if_pos hg, Nat.testBit_or, Nat.shiftLeft_eq, one_mul, Nat.testBit_two_pow_self]
        simp [hg]
      · rw [if_neg hg]
        simp [hg]
    · have hsb : s ≠ b := by omega
      rw [ih (s + 1) _ (by omega) (by simp at hb2 ⊢; omega)]
      have h2 : b - s = (b - (s + 1)) + 1 := by omega
      rw [h2, List.getElem?_cons_succ]
      by_cases hg : g p
      · rw [if_pos hg, Nat.testBit_or, Nat.shiftLeft_eq, one_mul,
          Nat.testBit_two_pow_of_ne hsb, Bool.or_false]
      · rw [if_neg hg]

theorem foldl_or_enumFrom_lt_two_pow (g : Int × Int → Bool) (ps : List (Int × Int))
    (s init : Nat) (hinit : init < 2 ^ 64) (hs : s + ps.length ≤ 64) :
    ((List.enumFrom s ps).foldl
        (fun w p => if g p.2 then w ||| (1 <<< p.1) else w) init) < 2 ^ 64 := by
  induction ps generalizing s init with
  | nil => simpa using hinit
  | cons p ps ih =>
    rw [List.enumFrom_cons, List.foldl_cons]
    have hred : (if g (s, p).2 then init ||| (1 <<< (s, p).1) else init)
        = (if g p then init ||| (1 <<< s) else init) := rfl
    rw [hred]
    refine ih (s + 1) _ ?_ (by simp at hs ⊢; omega)
    by_cases hg : g p
    · rw [if_pos hg]
      refine Nat.or_lt_two_pow hinit ?_
      rw [Nat.shiftLeft_eq, one_mul]
      exact Nat.pow_lt_pow_right (by norm_num) (by simp at hs; omega)
    · rw [if_neg hg]; exact hinit

theorem chunkWordNat_testBit (m : List Nat → Bool) (data : List Nat) (oc lc : List Int)
    (b : Nat) :
    (chunkWordNat m data oc lc).testBit b
      = (((oc.zip lc)[b]?).map (fun q => itemBit m data q.1 q.2)).getD false := by
  rcases Nat.lt_or_ge b (oc.zip lc).length with h | h
  · exact (foldl_or_enumFrom_testBit_lt (fun q => itemBit m data q.1 q.2) (oc.zip lc)
      0 0 b (Nat.zero_le b) (by omega)).trans (by simp)
  · exact (foldl_or_enumFrom_testBit_ge (fun q => itemBit m data q.1 q.2) (oc.zip lc)
      0 0 b (Or.inr (by omega))).trans (by rw [List.getElem?_eq_none h]; simp)

theorem chunkWordNat_lt_two_pow (m : List Nat → Bool) (data : List Nat) (oc lc : List Int)
    (h : (oc.zip lc).length ≤ 64) :
    chunkWordNat m data oc lc < 2 ^ 64 := by
  exact foldl_or_enumFrom_lt_two_pow (fun q => itemBit m data q.1 q.2) (oc.zip lc)
    0 0 (by norm_num) (by omega)

theorem jlongTestBit_toJlong (w : Nat) (hw : w < 2 ^ 64) (b : Nat) :
    jlongTestBit (toJlong w) b = w.testBit b := by
  unfold jlongTestBit toJlong
  split
  · have h1 : (((w : Int)) % (2 ^ 64 : Int)).toNat = w := by omega
    rw [h1]
  · have h1 : ((((w : Int)) - 2 ^ 64) % (2 ^ 64 : Int)).toNat = w := by omega
    rw [h1]

/-! The batch evaluator: characterization of the loop of lib.rs lines 235-252. -/

theorem batchCore_length (m : List Nat → Bool) (data : List Nat)
    (offsets lengths outBits : List Int) :
    (batchCore m data offsets lengths outBits).2.length = outBits.length := by
  simp only [batchCore]
  split
  · rfl
  · split
    · rfl
    · exact foldl_set_enumFrom_length
        (fun q => toJlong (chunkWordNat m data q.1 q.2))
        ((chunks64 offsets).zip (chunks64 lengths)) 0 outBits

theorem batchCore_err (m : List Nat → Bool) (data : List Nat)
    (offsets lengths outBits : List Int)
    (h : offsets.length ≠ lengths.length
      ∨ outBits.length < (offsets.length + 63) / 64) :
    ((batchCore m data offsets lengths outBits).1).isSome = true
    ∧ (batchCore m data offsets lengths outBits).2 = outBits := by
  simp only [batchCore]
  by_cases h1 : offsets.length ≠ lengths.length
  · rw [if_pos h1]
    exact ⟨rfl, rfl⟩
  · rcases h with h | h2
    · exact absurd h h1
    · rw [if_neg h1, if_pos h2]
      exact ⟨rfl, rfl⟩

theorem batchCore_ok (m : List Nat → Bool) (data : List Nat)
    (offsets lengths outBits : List Int)
    (hlen : offsets.length = lengths.length)
    (hout : (offsets.length + 63) / 64 ≤ outBits.length) :
    (batchCore m data offsets lengths outBits).1 = none := by
  simp only [batchCore]
  rw [if_neg (fun hh => hh hlen), if_neg (by omega)]

theorem batchCore_getElem? (m : List Nat → Bool) (data : List Nat)
    (offsets lengths outBits : List Int)
    (hlen : offsets.length = lengths.length)
    (hout : (offsets.length + 63) / 64 ≤ outBits.length) (w : Nat) :
    (batchCore m data offsets lengths outBits).2[w]?
      = if 64 * w < offsets.length then
          some (toJlong (chunkWordNat m data ((offsets.drop (64 * w)).take 64)
            ((lengths.drop (64 * w)).take 64)))
        else outBits[w]? := by
  have hplen : ((chunks64 offsets).zip (chunks64 lengths)).length
      = (offsets.length + 63) / 64 := by
    rw [List.length_zip, chunks64_length, chunks64_length, ← hlen, min_self]
  simp only [batchCore]
  rw [if_neg (fun hh => hh hlen), if_neg (by omega)]
  by_cases h64 : 64 * w < offsets.length
  · rw [if_pos h64]
    refine (foldl_set_enumFrom_getElem?_lt
      (fun q => toJlong (chunkWordNat m data q.1 q.2))
      ((chunks64 offsets).zip (chunks64 lengths)) 0 outBits
      (by omega) w (Nat.zero_le w) (by omega)).trans ?_
    rw [Nat.sub_zero, zip_getElem?, chunks64_getElem?, chunks64_getElem?]
    rw [if_pos h64, if_pos (by omega : 64 * w < lengths.length)]
    simp
  · rw [if_neg h64]
    exact foldl_set_enumFrom_getElem?_ge
      (fun q => toJlong (chunkWordNat m data q.1 q.2))
      ((chunks64 offsets).zip (chunks64 lengths)) 0 outBits w (Or.inr (by omega))

theorem intAt_getElem? (l : List Int) (i : Nat) (hi : i < l.length) :
    l[i]? = some (intAt l i) := by
  unfold intAt
  rw [List.getElem?_eq_getElem hi]
  simp

theorem batchCore_bit (m : List Nat → Bool) (data : List Nat)
    (offsets lengths outBits : List Int)
    (hlen : offsets.length = lengths.length)
    (hout : (offsets.length + 63) / 64 ≤ outBits.length)
    (i : Nat) (hi : i < offsets.length) :
    jlongTestBit (wordAt (batchCore m data offsets lengths outBits).2 (i / 64)) (i % 64)
      = itemBit m data (intAt offsets i) (intAt lengths i) := by
  have hcz := batchCore_getElem? m data offsets lengths outBits hlen hout (i / 64)
  rw [if_pos (by omega)] at hcz
  have hzl : (((offsets.drop (64 * (i / 64))).take 64).zip
      ((lengths.drop (64 * (i / 64))).take 64)).length ≤ 64 := by
    rw [List.length_zip, List.length_take, List.length_take]
    omega
  unfold wordAt
  rw [hcz, Option.getD_some,
    jlongTestBit_toJlong _ (chunkWordNat_lt_two_pow m data _ _ hzl),
    chunkWordNat_testBit, zip_getElem?]
  have hmod : i % 64 < 64 := Nat.mod_lt i (by norm_num)
  rw [List.getElem?_take_of_lt hmod, List.getElem?_take_of_lt hmod,
    List.getElem?_drop, List.getElem?_drop]
  have him : 64 * (i / 64) + i % 64 = i := Nat.div_add_mod i 64
  rw [him, intAt_getElem? offsets i hi, intAt_getElem? lengths i (by omega)]
  rfl

/-! The compile path: what a successful compile call guarantees. -/

theorem compileOp_success (eng : Engine μ) (st : NativeState μ) (p : String) (r : Int)
    (st1 : NativeState μ) (hwf : st.handles.WF)
    (h : compileOp eng st (some p) = (none, r, st1)) :
    ∃ (mid idx : Nat), r = (idx : Int) + 1
      ∧ cacheLookup st1.cache p = some mid
      ∧ st1.handles.get idx = some mid
      ∧ st1.handles.WF := by
  rcases hl : cacheLookup st.cache p with _ | mid
  · rcases hc : eng.compile p with _ | m
    · simp only [compileOp, hl, hc] at h
      simp at h
    · simp only [compileOp, hl, hc] at h
      simp only [Prod.mk.injEq] at h
      obtain ⟨-, hr, hst⟩ := h
      refine ⟨st.matchers.length, (st.handles.insert st.matchers.length).1,
        hr.symm, ?_, ?_, ?_⟩
      · rw [← hst]
        simp [cacheLookup]
      · rw [← hst]
        exact Slab.insert_get_self _ _ hwf
      · rw [← hst]
        exact Slab.insert_WF _ _ hwf
  · simp only [compileOp, hl] at h
    simp only [Prod.mk.injEq] at h
    obtain ⟨-, hr, hst⟩ := h
    refine ⟨mid, (st.handles.insert mid).1, hr.symm, ?_, ?_, ?_⟩
    · rw [← hst]
      exact hl
    · rw [← hst]
      exact Slab.insert_get_self _ _ hwf
    · rw [← hst]
      exact Slab.insert_WF _ _ hwf

theorem batchCore_err_data_independent (m m2 : List Nat → Bool) (data data2 : List Nat)
    (offsets lengths outBits : List Int)
    (h : offsets.length ≠ lengths.length
      ∨ outBits.length < (offsets.length + 63) / 64) :
    batchCore m data offsets lengths outBits = batchCore m2 data2 offsets lengths outBits := by
  simp only [batchCore]
  by_cases h1 : offsets.length ≠ lengths.length
  · rw [if_pos h1, if_pos h1]
  · rcases h with h | h2
    · exact absurd h h1
    · rw [if_neg h1, if_pos h2, if_neg h1, if_pos h2]

/-! The claims. -/

/-- C1: for a batch call that passes all preconditions (resolvable handle,
equal offsets/lengths array lengths, output array of at least
ceil(n/64) words) and any item index i below n, bit i mod 64 of output
word i div 64 is set exactly when item i's sub-region passes the unsigned
bounds check against the buffer capacity (negative values becoming huge
after the usize cast, hence rejected) and the matcher accepts the item's
byte slice; an invalid item leaves its bit unset and the remaining items
are still evaluated. -/
theorem batch_bit_set_iff_inbounds_and_match (eng : Engine μ) (st : NativeState μ)
    (handle : Int) (mid : Nat) (data : List Nat) (offsets lengths outBits : List Int)
    (i : Nat)
    (hres : getRegexFromHandle st handle = some mid)
    (hlen : offsets.length = lengths.length)
    (hout : (offsets.length + 63) / 64 ≤ outBits.length)
    (hi : i < offsets.length) :
    jlongTestBit (wordAt (batchMatchesUtf8Direct eng st handle data offsets lengths
        outBits).2 (i / 64)) (i % 64) = true
      ↔ (intToUsize (intAt offsets i) ≤ data.length
          ∧ intToUsize (intAt lengths i) ≤ data.length - intToUsize (intAt offsets i)
          ∧ engineMatch eng st mid ((data.drop (intToUsize (intAt offsets i))).take
              (intToUsize (intAt lengths i))) = true) := by
  have hb : batchMatchesUtf8Direct eng st handle data offsets lengths outBits
      = batchCore (engineMatch eng st mid) data offsets lengths outBits := by
    unfold batchMatchesUtf8Direct
    rw [hres]
  rw [hb, batchCore_bit _ _ _ _ _ hlen hout i hi]
  unfold itemBit
  simp [Bool.and_eq_true, decide_eq_true_eq]

/-- C9: a batch call with zero items (empty offsets and lengths arrays) on
a resolvable handle succeeds with no reported error and writes nothing to
the output bitset, whatever its length. -/
theorem batch_empty_succeeds_no_bits (eng : Engine μ) (st : NativeState μ)
    (handle : Int) (mid : Nat) (data : List Nat) (outBits : List Int)
    (hres : getRegexFromHandle st handle = some mid) :
    batchMatchesUtf8Direct eng st handle data [] [] outBits = (none, outBits) := by
  unfold batchMatchesUtf8Direct
  rw [hres]
  norm_num [batchCore, chunks64_nil]

/-- C10: a batch call that passes all preconditions writes only words
0 to ceil(n/64) of the output bitset: every word at index ceil(n/64) or
beyond keeps its prior value, and the array's length is unchanged. -/
theorem batch_frame_beyond_needed_words (eng : Engine μ) (st : NativeState μ)
    (handle : Int) (mid : Nat) (data : List Nat) (offsets lengths outBits : List Int)
    (w : Nat)
    (hres : getRegexFromHandle st handle = some mid)
    (hlen : offsets.length = lengths.length)
    (hout : (offsets.length + 63) / 64 ≤ outBits.length)
    (hw : (offsets.length + 63) / 64 ≤ w) :
    (batchMatchesUtf8Direct eng st handle data offsets lengths outBits).2[w]?
        = outBits[w]?
    ∧ (batchMatchesUtf8Direct eng st handle data offsets lengths outBits).2.length
        = outBits.length := by
  have hb : batchMatchesUtf8Direct eng st handle data offsets lengths outBits
      = batchCore (engineMatch eng st mid) data offsets lengths outBits := by
    unfold batchMatchesUtf8Direct
    rw [hres]
  rw [hb]
  refine ⟨(batchCore_getElem? _ _ _ _ _ hlen hout w).trans ?_, batchCore_length _ _ _ _ _⟩
  rw [if_neg (by omega)]

/-- C5: a batch call that fails one of its preconditions (unknown handle,
offsets/lengths length mismatch, or an output bitset below ceil(n/64)
words) reports an error, leaves the output bitset exactly as it was, and
performs no matching: the outcome is independent of the buffer contents,
and an unknown handle aborts before anything else. -/
theorem batch_precondition_failure_writes_nothing (eng : Engine μ) (st : NativeState μ)
    (handle : Int) (data dataAlt : List Nat) (offsets lengths outBits : List Int)
    (hfail : getRegexFromHandle st handle = none ∨ offsets.length ≠ lengths.length
      ∨ outBits.length < (offsets.length + 63) / 64) :
    ((batchMatchesUtf8Direct eng st handle data offsets lengths outBits).1).isSome = true
    ∧ (batchMatchesUtf8Direct eng st handle data offsets lengths outBits).2 = outBits
    ∧ batchMatchesUtf8Direct eng st handle dataAlt offsets lengths outBits
      = batchMatchesUtf8Direct eng st handle data offsets lengths outBits := by
  unfold batchMatchesUtf8Direct
  rcases hres : getRegexFromHandle st handle with _ | mid
  · exact ⟨rfl, rfl, rfl⟩
  · rcases hfail with hf | hf
    · rw [hres] at hf
      exact Option.noConfusion hf
    · have h1 := batchCore_err (engineMatch eng st mid) data offsets lengths outBits hf
      exact ⟨h1.1, h1.2,
        batchCore_err_data_independent _ _ dataAlt data offsets lengths outBits hf⟩

/-- C2: under the batch preconditions the addressed portion of the output
(words 0 to ceil(n/64)) is fully determined by matcher, buffer, offsets
and lengths — two calls differing only in the prior contents of the output
array produce identical addressed portions — and every set bit inside the
addressed portion belongs to an in-range item that passed the bounds check
and matched; all other addressed bits are zero, so stale bits never leak
through. -/
theorem batch_output_determined_no_stale_bits (eng : Engine μ) (st : NativeState μ)
    (handle : Int) (mid : Nat) (data : List Nat) (offsets lengths b1 b2 : List Int)
    (w b : Nat)
    (hres : getRegexFromHandle st handle = some mid)
    (hlen : offsets.length = lengths.length)
    (hout1 : (offsets.length + 63) / 64 ≤ b1.length)
    (hout2 : (offsets.length + 63) / 64 ≤ b2.length)
    (hw : w < (offsets.length + 63) / 64)
    (htrue : jlongTestBit (wordAt (batchMatchesUtf8Direct eng st handle data offsets
        lengths b1).2 w) b = true) :
    (batchMatchesUtf8Direct eng st handle data offsets lengths b1).2.take
        ((offsets.length + 63) / 64)
      = (batchMatchesUtf8Direct eng st handle data offsets lengths b2).2.take
        ((offsets.length + 63) / 64)
    ∧ 64 * w + b < offsets.length
    ∧ itemBit (engineMatch eng st mid) data (intAt offsets (64 * w + b))
        (intAt lengths (64 * w + b)) = true := by
  have hb1 : batchMatchesUtf8Direct eng st handle data offsets lengths b1
      = batchCore (engineMatch eng st mid) data offsets lengths b1 := by
    unfold batchMatchesUtf8Direct
    rw [hres]
  have hb2 : batchMatchesUtf8Direct eng st handle data offsets lengths b2
      = batchCore (engineMatch eng st mid) data offsets lengths b2 := by
    unfold batchMatchesUtf8Direct
    rw [hres]
  rw [hb1, hb2]
  rw [hb1] at htrue
  constructor
  · refine List.ext_getElem? ?_
    intro k
    by_cases hk : k < (offsets.length + 63) / 64
    · rw [List.getElem?_take_of_lt hk, List.getElem?_take_of_lt hk,
        batchCore_getElem? _ _ _ _ _ hlen hout1 k,
        batchCore_getElem? _ _ _ _ _ hlen hout2 k,
        if_pos (by omega), if_pos (by omega)]
    · rw [List.getElem?_eq_none (by
          rw [List.length_take, batchCore_length]
          omega),
        List.getElem?_eq_none (by
          rw [List.length_take, batchCore_length]
          omega)]
  · have hg := batchCore_getElem? (engineMatch eng st mid) data offsets lengths b1
      hlen hout1 w
    rw [if_pos (by omega)] at hg
    unfold wordAt at htrue
    rw [hg, Option.getD_some] at htrue
    have hzl : (((offsets.drop (64 * w)).take 64).zip
        ((lengths.drop (64 * w)).take 64)).length ≤ 64 := by
      rw [List.length_zip, List.length_take, List.length_take]
      omega
    rw [jlongTestBit_toJlong _ (chunkWordNat_lt_two_pow _ data _ _ hzl),
      chunkWordNat_testBit] at htrue
    rcases hq : (((offsets.drop (64 * w)).take 64).zip
        ((lengths.drop (64 * w)).take 64))[b]? with _ | q
    · rw [hq] at htrue
      simp at htrue
    · have hblt : b < (((offsets.drop (64 * w)).take 64).zip
          ((lengths.drop (64 * w)).take 64)).length := getElem?_some_lt hq
      rw [List.length_zip, List.length_take, List.length_take,
        List.length_drop, List.length_drop] at hblt
      have hb64 : b < 64 := by omega
      have hbn : 64 * w + b < offsets.length := by omega
      rw [hq] at htrue
      simp at htrue
      have hq2 := hq
      rw [zip_getElem?, List.getElem?_take_of_lt hb64, List.getElem?_take_of_lt hb64,
        List.getElem?_drop, List.getElem?_drop,
        intAt_getElem? offsets (64 * w + b) hbn,
        intAt_getElem? lengths (64 * w + b) (by omega)] at hq2
      simp only [Option.some.injEq] at hq2
      refine ⟨hbn, ?_⟩
      rw [← hq2] at htrue
      simpa using htrue

/-- C4: on a resolvable handle, matchOne reports a bounds error exactly
when the unsigned overflow-safe comparison rejects the sub-region
(offset cast above capacity, or length cast above capacity minus offset);
a negative offset or length (in the jint range, against any realistically
sized buffer) is always rejected; a failing call reads nothing from the
buffer (its result is the same for any other buffer of the same
capacity); a passing call matches exactly the length bytes starting at
offset. -/
theorem matchOne_bounds_check_and_slice (eng : Engine μ) (st : NativeState μ)
    (handle : Int) (mid : Nat) (data dataAlt : List Nat) (off ln : Int)
    (hres : getRegexFromHandle st handle = some mid)
    (hcap : data.length < 2 ^ 63)
    (hAlt : dataAlt.length = data.length)
    (hoff1 : -(2 ^ 31 : Int) ≤ off) (hoff2 : off < 2 ^ 31)
    (hln1 : -(2 ^ 31 : Int) ≤ ln) (hln2 : ln < 2 ^ 31) :
    matchesUtf8Direct eng st handle data off ln
      = (if intToUsize off > data.length
            ∨ intToUsize ln > data.length - intToUsize off
          then (some "offset/len out of bounds", false)
          else (none, engineMatch eng st mid ((data.drop (intToUsize off)).take
            (intToUsize ln))))
    ∧ (0 ≤ off ∨ (matchesUtf8Direct eng st handle data off ln).1
        = some "offset/len out of bounds")
    ∧ (0 ≤ ln ∨ (matchesUtf8Direct eng st handle data off ln).1
        = some "offset/len out of bounds")
    ∧ ((matchesUtf8Direct eng st handle data off ln).1 = none
        ∨ matchesUtf8Direct eng st handle dataAlt off ln
          = matchesUtf8Direct eng st handle data off ln) := by
  have hm : matchesUtf8Direct eng st handle data off ln
      = (if intToUsize off > data.length
            ∨ intToUsize ln > data.length - intToUsize off
          then (some "offset/len out of bounds", false)
          else (none, engineMatch eng st mid ((data.drop (intToUsize off)).take
            (intToUsize ln)))) := by
    unfold matchesUtf8Direct
    rw [hres]
  have hmAlt : matchesUtf8Direct eng st handle dataAlt off ln
      = (if intToUsize off > data.length
            ∨ intToUsize ln > data.length - intToUsize off
          then (some "offset/len out of bounds", false)
          else (none, engineMatch eng st mid ((dataAlt.drop (intToUsize off)).take
            (intToUsize ln)))) := by
    unfold matchesUtf8Direct
    rw [hres, hAlt]
  refine ⟨hm, ?_, ?_, ?_⟩
  · rcases Int.le_or_lt 0 off with h0 | h0
    · exact Or.inl h0
    · refine Or.inr ?_
      rw [hm, if_pos (Or.inl (by unfold intToUsize; omega))]
  · rcases Int.le_or_lt 0 ln with h0 | h0
    · exact Or.inl h0
    · refine Or.inr ?_
      rw [hm, if_pos (Or.inr (by unfold intToUsize; omega))]
  · by_cases hcond : intToUsize off > data.length
        ∨ intToUsize ln > data.length - intToUsize off
    · refine Or.inr ?_
      rw [hm, hmAlt, if_pos hcond, if_pos hcond]
    · refine Or.inl ?_
      rw [hm, if_neg hcond]

/-- C3 counterexample: the claim demands that releasing an already
released (or otherwise unallocated, positive) handle reports an error,
but in the code release only throws for a non-positive handle: after
compiling one pattern and releasing its handle 1, a second release of
handle 1 finds the slot vacant, silently does nothing and reports no
error. -/
theorem release_second_release_reports_no_error :
    getRegexFromHandle (releaseOp stW 1).2 1 = none
    ∧ (releaseOp (releaseOp stW 1).2 1).1 = none := by
  constructor
  · rfl
  · rfl

/-- C3 as amended: release reports a usage error exactly for a
non-positive handle; releasing a positive handle whose slot is out of
range or not currently allocated (a second release of the same handle in
particular) is silently ignored, reporting no error and leaving the
whole state unchanged; in neither case is the table corrupted. -/
theorem release_invalid_handle_error_iff_nonpositive (st : NativeState μ) (h : Int)
    (hinv : getRegexFromHandle st h = none) :
    (releaseOp st h).2 = st ∧ ((releaseOp st h).1).isSome = decide (h ≤ 0) := by
  by_cases h0 : h ≤ 0
  · have hidx : handleToIndex h = none := by
      unfold handleToIndex
      rw [if_pos h0]
    unfold releaseOp
    rw [hidx]
    exact ⟨rfl, by simp [h0]⟩
  · have hidx : handleToIndex h = some (h.toNat - 1) := by
      unfold handleToIndex
      rw [if_neg h0]
    have hget : st.handles.get (h.toNat - 1) = none := by
      unfold getRegexFromHandle at hinv
      rw [hidx] at hinv
      exact hinv
    have hcont : st.handles.contains (h.toNat - 1) = false := by
      unfold Slab.contains
      rw [hget]
      rfl
    unfold releaseOp
    rw [hidx]
    have hred : (match some (h.toNat - 1) with
        | none => ((some "Invalid handle" : Option String), st)
        | some idx =>
          if st.handles.contains idx then (none, { st with handles := st.handles.remove idx })
          else (none, st))
        = (if st.handles.contains (h.toNat - 1) then
            ((none : Option String), { st with handles := st.handles.remove (h.toNat - 1) })
          else (none, st)) := rfl
    rw [hred, if_neg (by rw [hcont]; exact Bool.false_ne_true)]
    exact ⟨rfl, by simp [h0]⟩

/-- C6: compiling the same pattern text a second time performs no
compilation work (the matcher arena, which grows by one entry per engine
compilation, is unchanged, and so is the cache) and returns a fresh
positive handle, distinct from the first, that resolves to the very same
shared matcher as the first handle — hence identical match results on
every input. -/
theorem compile_same_pattern_twice_shares_matcher (eng : Engine μ) (st : NativeState μ)
    (p : String) (r1 : Int) (st1 : NativeState μ) (d : List Nat) (o l : Int)
    (hwf : st.handles.WF)
    (h1 : compileOp eng st (some p) = (none, r1, st1)) :
    (compileOp eng st1 (some p)).1 = none
    ∧ (compileOp eng st1 (some p)).2.2.matchers = st1.matchers
    ∧ (compileOp eng st1 (some p)).2.2.cache = st1.cache
    ∧ 1 ≤ (compileOp eng st1 (some p)).2.1
    ∧ (compileOp eng st1 (some p)).2.1 ≠ r1
    ∧ getRegexFromHandle (compileOp eng st1 (some p)).2.2 ((compileOp eng st1 (some p)).2.1)
        = getRegexFromHandle (compileOp eng st1 (some p)).2.2 r1
    ∧ (getRegexFromHandle (compileOp eng st1 (some p)).2.2 r1).isSome = true
    ∧ matchesUtf8Direct eng (compileOp eng st1 (some p)).2.2 r1 d o l
        = matchesUtf8Direct eng (compileOp eng st1 (some p)).2.2
            ((compileOp eng st1 (some p)).2.1) d o l := by
  obtain ⟨mid, idx, hr, hcache, hget, hwf1⟩ := compileOp_success eng st p r1 st1 hwf h1
  have hc2 : compileOp eng st1 (some p)
      = (none, ((st1.handles.insert mid).1 : Int) + 1,
          { st1 with handles := (st1.handles.insert mid).2 }) := by
    simp only [compileOp, hcache]
  have hpres := Slab.insert_preserves st1.handles mid idx mid hwf1 hget
  have hres1 : getRegexFromHandle
      { st1 with handles := (st1.handles.insert mid).2 } r1 = some mid := by
    rw [hr]
    unfold getRegexFromHandle
    rw [handleToIndex_natSucc]
    exact hpres.1
  have hres2 : getRegexFromHandle
      { st1 with handles := (st1.handles.insert mid).2 }
      (((st1.handles.insert mid).1 : Int) + 1) = some mid := by
    unfold getRegexFromHandle
    rw [handleToIndex_natSucc]
    exact Slab.insert_get_self st1.handles mid hwf1
  refine ⟨by rw [hc2], by rw [hc2], by rw [hc2], ?_, ?_, ?_, ?_, ?_⟩
  · rw [hc2]
    show (1 : Int) ≤ ((st1.handles.insert mid).1 : Int) + 1
    omega
  · rw [hc2, hr]
    show ((st1.handles.insert mid).1 : Int) + 1 ≠ (idx : Int) + 1
    have hne := hpres.2
    omega
  · rw [hc2]
    show getRegexFromHandle { st1 with handles := (st1.handles.insert mid).2 }
        (((st1.handles.insert mid).1 : Int) + 1)
      = getRegexFromHandle { st1 with handles := (st1.handles.insert mid).2 } r1
    rw [hres2, hres1]
  · rw [hc2, hres1]
    rfl
  · rw [hc2]
    show matchesUtf8Direct eng { st1 with handles := (st1.handles.insert mid).2 } r1 d o l
      = matchesUtf8Direct eng { st1 with handles := (st1.handles.insert mid).2 }
          (((st1.handles.insert mid).1 : Int) + 1) d o l
    unfold matchesUtf8Direct
    rw [hres1, hres2]

/-- C7: after a handle is released, resolving it fails (and matchOne and
matchBatch on it report the unknown-handle error and leave the output
untouched); resolution also fails for every non-positive handle and for
every positive handle whose slot index was never allocated. -/
theorem released_or_invalid_handle_resolution_fails (eng : Engine μ) (st : NativeState μ)
    (mid : Nat) (h h2 h3 : Int) (d : List Nat) (o l : Int) (os ls ob : List Int)
    (hres : getRegexFromHandle st h = some mid)
    (hh2 : h2 ≤ 0)
    (hh3 : 0 < h3)
    (hidx3 : st.handles.entries[h3.toNat - 1]? = none) :
    (releaseOp st h).1 = none
    ∧ getRegexFromHandle (releaseOp st h).2 h = none
    ∧ matchesUtf8Direct eng (releaseOp st h).2 h d o l
        = (some "Unknown/expired handle", false)
    ∧ (batchMatchesUtf8Direct eng (releaseOp st h).2 h d os ls ob).1
        = some "Unknown/expired handle"
    ∧ (batchMatchesUtf8Direct eng (releaseOp st h).2 h d os ls ob).2 = ob
    ∧ getRegexFromHandle st h2 = none
    ∧ getRegexFromHandle st h3 = none := by
  have h0 : ¬ h ≤ 0 := by
    intro hle
    unfold getRegexFromHandle handleToIndex at hres
    rw [if_pos hle] at hres
    exact Option.noConfusion hres
  have hidx : handleToIndex h = some (h.toNat - 1) := by
    unfold handleToIndex
    rw [if_neg h0]
  have hget : st.handles.get (h.toNat - 1) = some mid := by
    unfold getRegexFromHandle at hres
    rw [hidx] at hres
    exact hres
  have hlt : h.toNat - 1 < st.handles.entries.length :=
    getElem?_some_lt (Slab.get_eq_some.1 hget)
  have hcont : st.handles.contains (h.toNat - 1) = true := by
    unfold Slab.contains
    rw [hget]
    rfl
  have hrel : releaseOp st h
      = (none, { st with handles := st.handles.remove (h.toNat - 1) }) := by
    unfold releaseOp
    rw [hidx]
    have hred : (match some (h.toNat - 1) with
        | none => ((some "Invalid handle" : Option String), st)
        | some idx =>
          if st.handles.contains idx then
            (none, { st with handles := st.handles.remove idx })
          else (none, st))
        = (if st.handles.contains (h.toNat - 1) then
            ((none : Option String), { st with handles := st.handles.remove (h.toNat - 1) })
          else (none, st)) := rfl
    rw [hred, if_pos hcont]
  have hafter : getRegexFromHandle (releaseOp st h).2 h = none := by
    rw [hrel]
    unfold getRegexFromHandle
    rw [hidx]
    exact Slab.get_remove_self st.handles (h.toNat - 1) hlt
  refine ⟨by rw [hrel], hafter, ?_, ?_, ?_, ?_, ?_⟩
  · unfold matchesUtf8Direct
    rw [hafter]
  · unfold batchMatchesUtf8Direct
    rw [hafter]
  · unfold batchMatchesUtf8Direct
    rw [hafter]
  · unfold getRegexFromHandle handleToIndex
    rw [if_pos hh2]
  · have hidx3i : handleToIndex h3 = some (h3.toNat - 1) := by
      unfold handleToIndex
      rw [if_neg (by omega)]
    unfold getRegexFromHandle
    rw [hidx3i]
    show st.handles.get (h3.toNat - 1) = none
    rw [Slab.get_eq, hidx3]
    rfl

/-- C8: every successful compile call returns a strictly positive handle
(the slot index plus one) and every failing one (unreadable pattern text,
or a pattern the engine rejects) reports an error, returns the reserved
value 0 and leaves the whole state — handle table and pattern cache —
unmodified; the returned value is never negative. -/
theorem compile_positive_handle_or_error_unchanged (eng : Engine μ) (st : NativeState μ)
    (pat : Option String) :
    ((compileOp eng st pat).1.isNone = decide (1 ≤ (compileOp eng st pat).2.1))
    ∧ ((compileOp eng st pat).2.2 = st ∨ (compileOp eng st pat).1 = none)
    ∧ ((compileOp eng st pat).2.1 = 0 ∨ 1 ≤ (compileOp eng st pat).2.1) := by
  rcases pat with _ | p
  · exact ⟨rfl, Or.inl rfl, Or.inl rfl⟩
  · rcases hl : cacheLookup st.cache p with _ | mid
    · rcases hc : eng.compile p with _ | m
      · have hv : compileOp eng st (some p) = (some "Invalid regex", 0, st) := by
          simp only [compileOp, hl, hc]
        rw [hv]
        exact ⟨rfl, Or.inl rfl, Or.inl rfl⟩
      · have hv : compileOp eng st (some p)
            = (none, ((st.handles.insert st.matchers.length).1 : Int) + 1,
              { cache := (p, st.matchers.length) :: st.cache,
                matchers := st.matchers ++ [m],
                handles := (st.handles.insert st.matchers.length).2 }) := by
          simp only [compileOp, hl, hc]
        rw [hv]
        refine ⟨?_, Or.inr rfl,
          Or.inr (by
            show (1 : Int) ≤ ((st.handles.insert st.matchers.length).1 : Int) + 1
            omega)⟩
        show (none : Option String).isNone
          = decide ((1 : Int) ≤ ((st.handles.insert st.matchers.length).1 : Int) + 1)
        rw [Option.isNone_none]
        exact (decide_eq_true (by omega)).symm
    · have hv : compileOp eng st (some p)
          = (none, ((st.handles.insert mid).1 : Int) + 1,
            { st with handles := (st.handles.insert mid).2 }) := by
        simp only [compileOp, hl]
      rw [hv]
      refine ⟨?_, Or.inr rfl,
        Or.inr (by
          show (1 : Int) ≤ ((st.handles.insert mid).1 : Int) + 1
          omega)⟩
      show (none : Option String).isNone
        = decide ((1 : Int) ≤ ((st.handles.insert mid).1 : Int) + 1)
      rw [Option.isNone_none]
      exact (decide_eq_true (by omega)).symm

/-! Witnesses: each claim theorem applied at a concrete input. -/

/-- C1 witness at a concrete batch over the compiled pattern pq. -/
theorem batch_bit_set_iff_inbounds_and_match_witness :
    jlongTestBit (wordAt (batchMatchesUtf8Direct testEngine stW 1 [7, 8] [0] [2]
        [0]).2 (0 / 64)) (0 % 64) = true
      ↔ (intToUsize (intAt [0] 0) ≤ [7, 8].length
          ∧ intToUsize (intAt [2] 0) ≤ [7, 8].length - intToUsize (intAt [0] 0)
          ∧ engineMatch testEngine stW 0 (([7, 8].drop (intToUsize (intAt [0] 0))).take
              (intToUsize (intAt [2] 0))) = true) :=
  batch_bit_set_iff_inbounds_and_match testEngine stW 1 0 [7, 8] [0] [2] [0] 0
    (by decide) (by decide) (by decide) (by decide)

/-- C2 witness: the same batch against two different prior output arrays. -/
theorem batch_output_determined_no_stale_bits_witness :
    (batchMatchesUtf8Direct testEngine stW 1 [7, 8] [0] [2] [0]).2.take
        ((([0] : List Int).length + 63) / 64)
      = (batchMatchesUtf8Direct testEngine stW 1 [7, 8] [0] [2] [9]).2.take
        ((([0] : List Int).length + 63) / 64)
    ∧ 64 * 0 + 0 < ([0] : List Int).length
    ∧ itemBit (engineMatch testEngine stW 0) [7, 8] (intAt [0] (64 * 0 + 0))
        (intAt [2] (64 * 0 + 0)) = true :=
  batch_output_determined_no_stale_bits testEngine stW 1 0 [7, 8] [0] [2] [0] [9] 0 0
    (by decide) (by decide) (by decide) (by decide) (by decide) (by decide)

/-- C3 witness: releasing an out-of-range handle on a live state. -/
theorem release_invalid_handle_error_iff_nonpositive_witness :
    (releaseOp stW 2).2 = stW ∧ ((releaseOp stW 2).1).isSome = decide ((2 : Int) ≤ 0) :=
  release_invalid_handle_error_iff_nonpositive stW 2 (by decide)

/-- C4 witness: a negative offset against a 3-byte buffer. -/
theorem matchOne_bounds_check_and_slice_witness :
    matchesUtf8Direct testEngine stW 1 [7, 8, 9] (-1) 2
      = (if intToUsize (-1) > [7, 8, 9].length
            ∨ intToUsize 2 > [7, 8, 9].length - intToUsize (-1)
          then (some "offset/len out of bounds", false)
          else (none, engineMatch testEngine stW 0
            (([7, 8, 9].drop (intToUsize (-1))).take (intToUsize 2))))
    ∧ ((0 : Int) ≤ -1 ∨ (matchesUtf8Direct testEngine stW 1 [7, 8, 9] (-1) 2).1
        = some "offset/len out of bounds")
    ∧ ((0 : Int) ≤ 2 ∨ (matchesUtf8Direct testEngine stW 1 [7, 8, 9] (-1) 2).1
        = some "offset/len out of bounds")
    ∧ ((matchesUtf8Direct testEngine stW 1 [7, 8, 9] (-1) 2).1 = none
        ∨ matchesUtf8Direct testEngine stW 1 [1, 2, 3] (-1) 2
          = matchesUtf8Direct testEngine stW 1 [7, 8, 9] (-1) 2) :=
  matchOne_bounds_check_and_slice testEngine stW 1 0 [7, 8, 9] [1, 2, 3] (-1) 2
    (by decide) (by decide) (by decide) (by decide) (by decide) (by decide) (by decide)

/-- C5 witness: a batch call on an unknown handle. -/
theorem batch_precondition_failure_writes_nothing_witness :
    ((batchMatchesUtf8Direct testEngine stW 2 [3] [0] [1] [5]).1).isSome = true
    ∧ (batchMatchesUtf8Direct testEngine stW 2 [3] [0] [1] [5]).2 = [5]
    ∧ batchMatchesUtf8Direct testEngine stW 2 [4] [0] [1] [5]
      = batchMatchesUtf8Direct testEngine stW 2 [3] [0] [1] [5] :=
  batch_precondition_failure_writes_nothing testEngine stW 2 [3] [4] [0] [1] [5]
    (by decide)

/-- C6 witness: compiling pq twice from the load-time state. -/
theorem compile_same_pattern_twice_shares_matcher_witness :
    (compileOp testEngine stW (some "pq")).1 = none
    ∧ (compileOp testEngine stW (some "pq")).2.2.matchers = stW.matchers
    ∧ (compileOp testEngine stW (some "pq")).2.2.cache = stW.cache
    ∧ 1 ≤ (compileOp testEngine stW (some "pq")).2.1
    ∧ (compileOp testEngine stW (some "pq")).2.1 ≠ 1
    ∧ getRegexFromHandle (compileOp testEngine stW (some "pq")).2.2
          ((compileOp testEngine stW (some "pq")).2.1)
        = getRegexFromHandle (compileOp testEngine stW (some "pq")).2.2 1
    ∧ (getRegexFromHandle (compileOp testEngine stW (some "pq")).2.2 1).isSome = true
    ∧ matchesUtf8Direct testEngine (compileOp testEngine stW (some "pq")).2.2 1 [7, 8] 0 2
        = matchesUtf8Direct testEngine (compileOp testEngine stW (some "pq")).2.2
            ((compileOp testEngine stW (some "pq")).2.1) [7, 8] 0 2 :=
  compile_same_pattern_twice_shares_matcher testEngine initState "pq" 1 stW [7, 8] 0 2
    (by decide) (by decide)

/-- C7 witness: release handle 1, then resolve it, a zero handle and a
never-allocated slot. -/
theorem released_or_invalid_handle_resolution_fails_witness :
    (releaseOp stW 1).1 = none
    ∧ getRegexFromHandle (releaseOp stW 1).2 1 = none
    ∧ matchesUtf8Direct testEngine (releaseOp stW 1).2 1 [1] 0 1
        = (some "Unknown/expired handle", false)
    ∧ (batchMatchesUtf8Direct testEngine (releaseOp stW 1).2 1 [1] [] [] []).1
        = some "Unknown/expired handle"
    ∧ (batchMatchesUtf8Direct testEngine (releaseOp stW 1).2 1 [1] [] [] []).2 = []
    ∧ getRegexFromHandle stW 0 = none
    ∧ getRegexFromHandle stW 5 = none :=
  released_or_invalid_handle_resolution_fails testEngine stW 0 1 0 5 [1] 0 1 [] [] []
    (by decide) (by decide) (by decide) (by decide)

/-- C9 witness: an empty batch with an empty output bitset. -/
theorem batch_empty_succeeds_no_bits_witness :
    batchMatchesUtf8Direct testEngine stW 1 [] [] [] ([] : List Int) = (none, []) :=
  batch_empty_succeeds_no_bits testEngine stW 1 0 [] [] (by decide)

/-- C10 witness: one item, two output words; the second word keeps its 9. -/
theorem batch_frame_beyond_needed_words_witness :
    (batchMatchesUtf8Direct testEngine stW 1 [7, 8] [0] [2] [0, 9]).2[1]?
        = ([0, 9] : List Int)[1]?
    ∧ (batchMatchesUtf8Direct testEngine stW 1 [7, 8] [0] [2] [0, 9]).2.length
        = ([0, 9] : List Int).length :=
  batch_frame_beyond_needed_words testEngine stW 1 0 [7, 8] [0] [2] [0, 9] 1
    (by decide) (by decide) (by decide) (by decide)
